import Mathlib

set_option maxHeartbeats 2000000
set_option maxRecDepth 8000

/-!
Verification of the stationary-covariance solvers of the notebook
`kalman_filter_initialization_stationary.ipynb`.

The notebook computes the stationary covariance `S` of a linear state-space
process, i.e. the solution of the discrete Lyapunov equation
`S = T * S * Tᴴ + Q`, in three ways: a direct Kronecker-product
vectorization solve (`direct_inverse`), and two bilinear-transform
reductions to a continuous Lyapunov equation (`bilinear1`, `bilinear2`).

The numpy complex scalars are modelled exactly by `GaussQ`, the field
`ℚ[i]` of complex numbers with rational real and imaginary parts.
`np.linalg.inv` (which raises `LinAlgError` on a singular input) is
modelled by `inv?`, which returns `none` exactly on singular input.
`scipy.linalg.solve_lyapunov` is external library code, not part of this
repository; it is modelled from the spec (see `solve_lyapunov`).

Index convention: an `m² × m²` vectorized operator is indexed by
`Fin m × Fin m`, where the pair `(i, r)` stands for the flat row-major
numpy index `i*m + r`; the lexicographic order on pairs is exactly the
order of the flat indices, so `np.kron`, `reshape(size, 1)` and
`reshape(n, n)` (both C-order / row-major) are `kron`, `rvec` and
`unflatten` below.
-/

/-- Exact complex scalars with rational real and imaginary parts: the
idealized (exact-arithmetic) model of the complex floating-point scalars of
the notebook's numpy arrays. -/
structure GaussQ where
  re : ℚ
  im : ℚ
deriving DecidableEq

namespace GaussQ

/-- Componentwise addition. -/
def add (z w : GaussQ) : GaussQ := ⟨z.re + w.re, z.im + w.im⟩

/-- Complex multiplication. -/
def mul (z w : GaussQ) : GaussQ :=
  ⟨z.re * w.re - z.im * w.im, z.re * w.im + z.im * w.re⟩

/-- Componentwise negation. -/
def neg (z : GaussQ) : GaussQ := ⟨-z.re, -z.im⟩

/-- Complex reciprocal (0 at 0). -/
def inv (z : GaussQ) : GaussQ :=
  ⟨z.re / (z.re ^ 2 + z.im ^ 2), -z.im / (z.re ^ 2 + z.im ^ 2)⟩

/-- Complex conjugation. -/
def conj (z : GaussQ) : GaussQ := ⟨z.re, -z.im⟩

instance : Zero GaussQ := ⟨⟨0, 0⟩⟩
instance : One GaussQ := ⟨⟨1, 0⟩⟩
instance : Add GaussQ := ⟨add⟩
instance : Mul GaussQ := ⟨mul⟩
instance : Neg GaussQ := ⟨neg⟩
instance : Inv GaussQ := ⟨inv⟩

instance : CommRing GaussQ where
  nsmul := nsmulRec
  zsmul := zsmulRec
  natCast n := ⟨(n : ℚ), 0⟩
  natCast_zero := by
    exact congrArg₂ mk (by norm_num) rfl
  natCast_succ n := by
    have ea : ∀ z w : GaussQ, z + w = ⟨z.re + w.re, z.im + w.im⟩ := fun _ _ => rfl
    have e1 : (1 : GaussQ) = ⟨1, 0⟩ := rfl
    simp only [ea, e1]
    exact congrArg₂ mk (by push_cast; ring) (by norm_num)

  add_assoc a b c := by
    have ea : ∀ z w : GaussQ, z + w = ⟨z.re + w.re, z.im + w.im⟩ := fun _ _ => rfl
    simp only [ea]
    exact congrArg₂ mk (by ring) (by ring)
  zero_add a := by
    have ea : ∀ z w : GaussQ, z + w = ⟨z.re + w.re, z.im + w.im⟩ := fun _ _ => rfl
    have e0 : (0 : GaussQ) = ⟨0, 0⟩ := rfl
    simp only [ea, e0]
    exact congrArg₂ mk (by ring) (by ring)
  add_zero a := by
    have ea : ∀ z w : GaussQ, z + w = ⟨z.re + w.re, z.im + w.im⟩ := fun _ _ => rfl
    have e0 : (0 : GaussQ) = ⟨0, 0⟩ := rfl
    simp only [ea, e0]
    exact congrArg₂ mk (by ring) (by ring)
  add_comm a b := by
    have ea : ∀ z w : GaussQ, z + w = ⟨z.re + w.re, z.im + w.im⟩ := fun _ _ => rfl
    simp only [ea]
    exact congrArg₂ mk (by ring) (by ring)
  left_distrib a b c := by
    have ea : ∀ z w : GaussQ, z + w = ⟨z.re + w.re, z.im + w.im⟩ := fun _ _ => rfl
    have em : ∀ z w : GaussQ,
        z * w = ⟨z.re * w.re - z.im * w.im, z.re * w.im + z.im * w.re⟩ := fun _ _ => rfl
    simp only [ea, em]
    exact congrArg₂ mk (by ring) (by ring)
  right_distrib a b c := by
    have ea : ∀ z w : GaussQ, z + w = ⟨z.re + w.re, z.im + w.im⟩ := fun _ _ => rfl
    have em : ∀ z w : GaussQ,
        z * w = ⟨z.re * w.re - z.im * w.im, z.re * w.im + z.im * w.re⟩ := fun _ _ => rfl
    simp only [ea, em]
    exact congrArg₂ mk (by ring) (by ring)
  zero_mul a := by
    have em : ∀ z w : GaussQ,
        z * w = ⟨z.re * w.re - z.im * w.im, z.re * w.im + z.im * w.re⟩ := fun _ _ => rfl
    have e0 : (0 : GaussQ) = ⟨0, 0⟩ := rfl
    simp only [em, e0]
    exact congrArg₂ mk (by ring) (by ring)
  mul_zero a := by
    have em : ∀ z w : GaussQ,
        z * w = ⟨z.re * w.re - z.im * w.im, z.re * w.im + z.im * w.re⟩ := fun _ _ => rfl
    have e0 : (0 : GaussQ) = ⟨0, 0⟩ := rfl
    simp only [em, e0]
    exact congrArg₂ mk (by ring) (by ring)
  mul_assoc a b c := by
    have em : ∀ z w : GaussQ,
        z * w = ⟨z.re * w.re - z.im * w.im, z.re * w.im + z.im * w.re⟩ := fun _ _ => rfl
    simp only [em]
    exact congrArg₂ mk (by ring) (by ring)
  one_mul a := by
    have em : ∀ z w : GaussQ,
        z * w = ⟨z.re * w.re - z.im * w.im, z.re * w.im + z.im * w.re⟩ := fun _ _ => rfl
    have e1 : (1 : GaussQ) = ⟨1, 0⟩ := rfl
    simp only [em, e1]
    exact congrArg₂ mk (by ring) (by ring)
  mul_one a := by
    have em : ∀ z w : GaussQ,
        z * w = ⟨z.re * w.re - z.im * w.im, z.re * w.im + z.im * w.re⟩ := fun _ _ => rfl
    have e1 : (1 : GaussQ) = ⟨1, 0⟩ := rfl
    simp only [em, e1]
    exact congrArg₂ mk (by ring) (by ring)
  neg_add_cancel a := by
    have ea : ∀ z w : GaussQ, z + w = ⟨z.re + w.re, z.im + w.im⟩ := fun _ _ => rfl
    have en : ∀ z : GaussQ, -z = ⟨-z.re, -z.im⟩ := fun _ => rfl
    have e0 : (0 : GaussQ) = ⟨0, 0⟩ := rfl
    simp only [ea, en, e0]
    exact congrArg₂ mk (by ring) (by ring)
  mul_comm a b := by
    have em : ∀ z w : GaussQ,
        z * w = ⟨z.re * w.re - z.im * w.im, z.re * w.im + z.im * w.re⟩ := fun _ _ => rfl
    simp only [em]
    exact congrArg₂ mk (by ring) (by ring)

instance : Field GaussQ where
  nnqsmul := _
  qsmul := _
  exists_pair_ne := ⟨0, 1, by decide⟩
  mul_inv_cancel a ha := by
    have hs : a.re ^ 2 + a.im ^ 2 ≠ 0 := by
      intro h
      have h1 : a.re ^ 2 = 0 := le_antisymm (by nlinarith [sq_nonneg a.im]) (sq_nonneg a.re)
      have h2 : a.im ^ 2 = 0 := le_antisymm (by nlinarith [sq_nonneg a.re]) (sq_nonneg a.im)
      refine ha ?_
      have hr := sq_eq_zero_iff.1 h1
      have hi := sq_eq_zero_iff.1 h2
      have : a = ⟨a.re, a.im⟩ := rfl
      rw [this, hr, hi]
      rfl
    have em : ∀ z w : GaussQ,
        z * w = ⟨z.re * w.re - z.im * w.im, z.re * w.im + z.im * w.re⟩ := fun _ _ => rfl
    have ei : ∀ z : GaussQ,
        z⁻¹ = ⟨z.re / (z.re ^ 2 + z.im ^ 2), -z.im / (z.re ^ 2 + z.im ^ 2)⟩ := fun _ => rfl
    have e1 : (1 : GaussQ) = ⟨1, 0⟩ := rfl
    simp only [em, ei, e1]
    refine congrArg₂ mk ?_ ?_ <;> (field_simp; try ring)
  inv_zero := by
    have ei : ∀ z : GaussQ,
        z⁻¹ = ⟨z.re / (z.re ^ 2 + z.im ^ 2), -z.im / (z.re ^ 2 + z.im ^ 2)⟩ := fun _ => rfl
    have e0 : (0 : GaussQ) = ⟨0, 0⟩ := rfl
    simp only [ei, e0]
    exact congrArg₂ mk (by norm_num) (by norm_num)

instance : StarRing GaussQ where
  star := conj
  star_involutive z := by
    have ec : ∀ z : GaussQ, conj z = ⟨z.re, -z.im⟩ := fun _ => rfl
    simp only [ec]
    exact congrArg₂ mk (by ring) (by ring)
  star_mul z w := by
    have ec : ∀ z : GaussQ, conj z = ⟨z.re, -z.im⟩ := fun _ => rfl
    have em : ∀ z w : GaussQ,
        z * w = ⟨z.re * w.re - z.im * w.im, z.re * w.im + z.im * w.re⟩ := fun _ _ => rfl
    simp only [ec, em]
    exact congrArg₂ mk (by ring) (by ring)
  star_add z w := by
    have ec : ∀ z : GaussQ, conj z = ⟨z.re, -z.im⟩ := fun _ => rfl
    have ea : ∀ z w : GaussQ, z + w = ⟨z.re + w.re, z.im + w.im⟩ := fun _ _ => rfl
    simp only [ec, ea]
    exact congrArg₂ mk (by ring) (by ring)

end GaussQ

open Matrix

/-- Square `m × m` complex matrices: the model of the notebook's square numpy
arrays of complex dtype. -/
abbrev Mat (m : ℕ) := Matrix (Fin m) (Fin m) GaussQ

/-- `m² × m²` matrices indexed by pairs; the pair `(i, r)` stands for the flat
row-major numpy index `i*m + r` (lexicographic pair order = flat order). -/
abbrev BigMat (m : ℕ) := Matrix (Fin m × Fin m) (Fin m × Fin m) GaussQ

/-- `np.kron(A, B)` for two `m × m` arrays: the entry of `np.kron` at flat
position `(i*m + r, j*m + s)` is `A[i,j] * B[r,s]`. -/
def kron {m : ℕ} (A B : Mat m) : BigMat m :=
  Matrix.of fun p q => A p.1 q.1 * B p.2 q.2

/-- `A.conj()`: entrywise complex conjugation. -/
def conjm {m : ℕ} (A : Mat m) : Mat m := A.map star

/-- `Q.reshape(Q.size, 1)` in numpy's default C (row-major) order: the flat
index `i*m + j` holds `Q[i,j]`. -/
def rvec {m : ℕ} (Q : Mat m) : Fin m × Fin m → GaussQ := fun p => Q p.1 p.2

/-- `v.reshape(n, n)` in numpy's default C (row-major) order. -/
def unflatten {m : ℕ} (v : Fin m × Fin m → GaussQ) : Mat m :=
  Matrix.of fun i j => v (i, j)

/-- `np.linalg.inv`: returns the inverse of a nonsingular matrix and raises
`LinAlgError` (here: `none`) exactly on singular input. -/
def inv? {ι : Type} [Fintype ι] [DecidableEq ι] (A : Matrix ι ι GaussQ) :
    Option (Matrix ι ι GaussQ) :=
  if A.det = 0 then none else some (A.det⁻¹ • A.adjugate)

/-- The row-major vectorization of the continuous Lyapunov operator
`X ↦ a·X + X·aᴴ`. -/
def lyapOp {m : ℕ} (a : Mat m) : BigMat m :=
  kron a 1 + kron 1 (conjm a)

/-- Modelled from the spec: `scipy.linalg.solve_lyapunov` (the
`ContinuousLyapunovSolver` component; its implementation lives in scipy,
outside this repository's sources).  Called as `solve_lyapunov(a, q)` it
returns the solution `x` of `a·x + x·aᴴ = q`; per the spec it fails when the
reduced triangular system has a resonance `s_i + conj(s_j) = 0`, i.e. exactly
when the vectorized operator `lyapOp a` is singular, which is also exactly
when the equation fails to have a unique solution. -/
def solve_lyapunov {m : ℕ} (a q : Mat m) : Option (Mat m) :=
  (inv? (lyapOp a)).map fun Ki => unflatten (Ki *ᵥ rvec q)

/-- Source `direct_inverse(A, Q)`:
`np.linalg.inv(np.eye(n**2) - np.kron(A, A.conj())).dot(Q.reshape(Q.size, 1)).reshape(n, n)`. -/
def direct_inverse {m : ℕ} (A Q : Mat m) : Option (Mat m) :=
  (inv? (1 - kron A (conjm A))).map fun Mi => unflatten (Mi *ᵥ rvec Q)

/-- Source `bilinear1(A, Q)`: reassign `A := A.conj().T`; then
`B := inv(A - I) @ (A + I)`; `res := solve_lyapunov(B.conj().T, -Q)`;
return `0.5 * (B - I).conj().T @ res @ (B - I)`. -/
def bilinear1 {m : ℕ} (A Q : Mat m) : Option (Mat m) :=
  (inv? (Aᴴ - 1)).bind fun Mi =>
    let B := Mi * (Aᴴ + 1)
    (solve_lyapunov Bᴴ (-Q)).map fun res =>
      (2 : GaussQ)⁻¹ • ((B - 1)ᴴ * res * (B - 1))

/-- Source `bilinear2(A, Q)`: reassign `A := A.conj().T`; then
`AI_inv := inv(A + I)`; `B := (A - I) @ AI_inv`;
`C := 2 * inv(A.conj().T + I) @ Q @ AI_inv`;
return `solve_lyapunov(B.conj().T, -C)`. -/
def bilinear2 {m : ℕ} (A Q : Mat m) : Option (Mat m) :=
  (inv? (Aᴴ + 1)).bind fun AIinv =>
    let B := (Aᴴ - 1) * AIinv
    (inv? (Aᴴᴴ + 1)).bind fun Ci =>
      let C := (2 : GaussQ) • (Ci * Q * AIinv)
      solve_lyapunov Bᴴ (-C)

/-- Source `state(m)`: `T` has `0.6 + 1j` in the top-left corner and ones on
the first subdiagonal, `Q` is the identity. -/
def state (m : ℕ) : Mat m × Mat m :=
  (Matrix.of fun i j =>
    if (i : ℕ) = 0 ∧ (j : ℕ) = 0 then ⟨3/5, 1⟩
    else if (i : ℕ) = (j : ℕ) + 1 then 1 else 0,
   1)

/-- The spec's column-major (Fortran-order) reading of the vectorization used
by the direct method: the column-major stack of `Q` puts `Q[i,j]` at flat
index `j*m + i`, so the flat pair `(a, b)` (standing for `a*m + b`) holds
`Q[b,a]`. -/
def cvec {m : ℕ} (Q : Mat m) : Fin m × Fin m → GaussQ := fun p => Q p.2 p.1

/-- Column-major (Fortran-order) reshape of a flat vector to an `m × m`
matrix, the inverse of `cvec`. -/
def unflattenCol {m : ℕ} (v : Fin m × Fin m → GaussQ) : Mat m :=
  Matrix.of fun i j => v (j, i)

/-- The direct method as worded by the spec: build `M = I - kron(T, conj(T))`
and `q = vectorize(Q)` by COLUMN-major stacking, then reshape `invert(M)·q`
back to an `m × m` matrix (column-major).  Written from the spec's words, for
comparison with `direct_inverse`, which follows the source. -/
def direct_inverse_colmajor {m : ℕ} (A Q : Mat m) : Option (Mat m) :=
  (inv? (1 - kron A (conjm A))).map fun Mi => unflattenCol (Mi *ᵥ cvec Q)

/-- Concrete scenario input `T = [[0.5]]`. -/
def Thalf : Mat 1 := Matrix.of ![![⟨1/2, 0⟩]]

/-- Concrete scenario input `Q = [[1]]`. -/
def Qone : Mat 1 := Matrix.of ![![⟨1, 0⟩]]

/-- Concrete scenario output `Sigma = [[4/3]]`. -/
def Sig43 : Mat 1 := Matrix.of ![![⟨4/3, 0⟩]]

/-- Concrete input `T = [[1]]` (unit root). -/
def Tone : Mat 1 := Matrix.of ![![⟨1, 0⟩]]

/-- Concrete input `T = [[2]]` (explosive root, spectral radius 2). -/
def Ttwo : Mat 1 := Matrix.of ![![⟨2, 0⟩]]

/-- The matrix `[[-1/3]]` silently returned by the direct method at
`T = [[2]]`, `Q = [[1]]`. -/
def SigNegThird : Mat 1 := Matrix.of ![![⟨-1/3, 0⟩]]

/-- Concrete input `T = [[i]]` (the imaginary unit: modulus 1 but no
eigenvalue pair with product 1). -/
def Timag : Mat 1 := Matrix.of ![![⟨0, 1⟩]]

/-- Concrete input `T = [[-1]]` (eigenvalue -1, no eigenvalue 1). -/
def Tminus1 : Mat 1 := Matrix.of ![![⟨-1, 0⟩]]

/-- Concrete non-Hermitian input `Q = [[i]]`. -/
def Qimag : Mat 1 := Matrix.of ![![⟨0, 1⟩]]

/-- The matrix `[[4i/3]]` returned by the solvers at `T = [[0.5]]`,
`Q = [[i]]`. -/
def SigImag : Mat 1 := Matrix.of ![![⟨0, 4/3⟩]]

/-- Concrete complex diagonal input `T = diag(i/2, 1/2)`. -/
def Tdiag : Mat 2 := Matrix.of ![![⟨0, 1/2⟩, 0], ![0, ⟨1/2, 0⟩]]

/-- Concrete Hermitian PSD input `Q` with all entries 1. -/
def Qones : Mat 2 := Matrix.of ![![1, 1], ![1, 1]]


/-- The index type of a 1-by-1 vectorized operator has a single element. -/
instance : Unique (Fin 1 × Fin 1) :=
  ⟨⟨(0, 0)⟩, fun p => Prod.ext (Subsingleton.elim p.1 0) (Subsingleton.elim p.2 0)⟩

namespace GaussQ

@[simp] theorem zero_re : (0 : GaussQ).re = 0 := rfl

@[simp] theorem zero_im : (0 : GaussQ).im = 0 := rfl

@[simp] theorem one_re : (1 : GaussQ).re = 1 := rfl

@[simp] theorem one_im : (1 : GaussQ).im = 0 := rfl

@[simp] theorem add_re (z w : GaussQ) : (z + w).re = z.re + w.re := rfl

@[simp] theorem add_im (z w : GaussQ) : (z + w).im = z.im + w.im := rfl

@[simp] theorem neg_re (z : GaussQ) : (-z).re = -z.re := rfl

@[simp] theorem neg_im (z : GaussQ) : (-z).im = -z.im := rfl

@[simp] theorem sub_re (z w : GaussQ) : (z - w).re = z.re - w.re := by
  rw [sub_eq_add_neg, add_re, neg_re, sub_eq_add_neg]

@[simp] theorem sub_im (z w : GaussQ) : (z - w).im = z.im - w.im := by
  rw [sub_eq_add_neg, add_im, neg_im, sub_eq_add_neg]

@[simp] theorem mul_re (z w : GaussQ) : (z * w).re = z.re * w.re - z.im * w.im := rfl

@[simp] theorem mul_im (z w : GaussQ) : (z * w).im = z.re * w.im + z.im * w.re := rfl

@[simp] theorem inv_re (z : GaussQ) : z⁻¹.re = z.re / (z.re ^ 2 + z.im ^ 2) := rfl

@[simp] theorem inv_im (z : GaussQ) : z⁻¹.im = -z.im / (z.re ^ 2 + z.im ^ 2) := rfl

@[simp] theorem star_re (z : GaussQ) : (star z).re = z.re := rfl

@[simp] theorem star_im (z : GaussQ) : (star z).im = -z.im := rfl

@[simp] theorem natCast_re (n : ℕ) : ((n : GaussQ)).re = (n : ℚ) := rfl

@[simp] theorem natCast_im (n : ℕ) : ((n : GaussQ)).im = 0 := rfl

@[simp] theorem ofNat_re (n : ℕ) [n.AtLeastTwo] :
    (no_index (OfNat.ofNat n) : GaussQ).re = OfNat.ofNat n := rfl

@[simp] theorem ofNat_im (n : ℕ) [n.AtLeastTwo] :
    (no_index (OfNat.ofNat n) : GaussQ).im = 0 := rfl

theorem eq_iff {z w : GaussQ} : z = w ↔ z.re = w.re ∧ z.im = w.im := by
  constructor
  · rintro rfl
    exact ⟨rfl, rfl⟩
  · rintro ⟨h1, h2⟩
    cases z
    cases w
    cases h1
    cases h2
    rfl

@[simp] theorem smul_re (c : GaussQ) (z : GaussQ) : (c • z).re = (c * z).re := rfl

@[simp] theorem smul_im (c : GaussQ) (z : GaussQ) : (c • z).im = (c * z).im := rfl

end GaussQ

theorem rvec_unflatten {m : ℕ} (v : Fin m × Fin m → GaussQ) :
    rvec (unflatten v) = v := rfl

theorem unflatten_rvec {m : ℕ} (X : Mat m) : unflatten (rvec X) = X := rfl

theorem rvec_inj {m : ℕ} {X Y : Mat m} (h : rvec X = rvec Y) : X = Y := by
  funext i j
  exact congrFun h (i, j)

theorem rvec_sub {m : ℕ} (X Y : Mat m) : rvec (X - Y) = rvec X - rvec Y := rfl

theorem rvec_add {m : ℕ} (X Y : Mat m) : rvec (X + Y) = rvec X + rvec Y := rfl

theorem kron_mulVec {m : ℕ} (A B X : Mat m) :
    kron A B *ᵥ rvec X = rvec (A * X * Bᵀ) := by
  funext p
  simp only [Matrix.mulVec, Matrix.dotProduct, kron, rvec, Matrix.mul_apply,
    Matrix.transpose_apply, Matrix.of_apply]
  rw [Fintype.sum_prod_type, Finset.sum_comm]
  refine Finset.sum_congr rfl fun s _ => ?_
  rw [Finset.sum_mul]
  exact Finset.sum_congr rfl fun j _ => by ring

theorem conjm_transpose {m : ℕ} (A : Mat m) : (conjm A)ᵀ = Aᴴ := rfl

theorem stein_iff {m : ℕ} (T Q S : Mat m) :
    (1 - kron T (conjm T)) *ᵥ rvec S = rvec Q ↔ S = T * S * Tᴴ + Q := by
  rw [Matrix.sub_mulVec, Matrix.one_mulVec, kron_mulVec, conjm_transpose]
  constructor
  · intro h
    have h2 : rvec (S - T * S * Tᴴ) = rvec Q := by
      rw [rvec_sub]; exact h
    exact sub_eq_iff_eq_add'.1 (rvec_inj h2)
  · intro h
    rw [← rvec_sub]
    exact congrArg rvec (sub_eq_iff_eq_add'.2 h)

theorem inv?_none_iff {ι : Type} [Fintype ι] [DecidableEq ι]
    (A : Matrix ι ι GaussQ) : inv? A = none ↔ A.det = 0 := by
  unfold inv?
  split <;> simp_all

theorem inv?_eq_some_inv {ι : Type} [Fintype ι] [DecidableEq ι]
    {A : Matrix ι ι GaussQ} (h : A.det ≠ 0) : inv? A = some A⁻¹ := by
  unfold inv?
  rw [if_neg h, Matrix.inv_def, Ring.inverse_eq_inv]

theorem inv?_some_elim {ι : Type} [Fintype ι] [DecidableEq ι]
    {A B : Matrix ι ι GaussQ} (h : inv? A = some B) : A.det ≠ 0 ∧ B = A⁻¹ := by
  by_cases hd : A.det = 0
  · unfold inv? at h
    rw [if_pos hd] at h
    cases h
  · refine ⟨hd, ?_⟩
    rw [inv?_eq_some_inv hd] at h
    exact (Option.some_injective _ h).symm

theorem inv?_of_mul_eq_one {ι : Type} [Fintype ι] [DecidableEq ι]
    {A B : Matrix ι ι GaussQ} (h : A * B = 1) : inv? A = some B := by
  have hd : A.det * B.det = 1 := by rw [← Matrix.det_mul, h, Matrix.det_one]
  have h0 : A.det ≠ 0 := left_ne_zero_of_mul_eq_one hd
  rw [inv?_eq_some_inv h0, Matrix.inv_eq_right_inv h]

theorem det_ne_zero_of_mul_eq_one {ι : Type} [Fintype ι] [DecidableEq ι]
    {A B : Matrix ι ι GaussQ} (h : A * B = 1) : A.det ≠ 0 := by
  have hd : A.det * B.det = 1 := by rw [← Matrix.det_mul, h, Matrix.det_one]
  exact left_ne_zero_of_mul_eq_one hd

theorem lyapOp_mulVec {m : ℕ} (a x : Mat m) :
    lyapOp a *ᵥ rvec x = rvec (a * x + x * aᴴ) := by
  unfold lyapOp
  rw [Matrix.add_mulVec, kron_mulVec, kron_mulVec, Matrix.transpose_one,
    mul_one, Matrix.one_mul, conjm_transpose, ← rvec_add]

theorem solve_lyapunov_some_elim {m : ℕ} {a q x : Mat m}
    (h : solve_lyapunov a q = some x) :
    a * x + x * aᴴ = q ∧ (lyapOp a).det ≠ 0 := by
  unfold solve_lyapunov at h
  cases hinv : inv? (lyapOp a) with
  | none => rw [hinv] at h; cases h
  | some Ki =>
    rw [hinv] at h
    obtain ⟨hd, hK⟩ := inv?_some_elim hinv
    refine ⟨?_, hd⟩
    have hx : x = unflatten (Ki *ᵥ rvec q) := (Option.some_injective _ h).symm
    have hu : IsUnit (lyapOp a).det := isUnit_iff_ne_zero.2 hd
    apply rvec_inj
    rw [← lyapOp_mulVec, hx, rvec_unflatten, hK, Matrix.mulVec_mulVec,
      Matrix.mul_nonsing_inv _ hu, Matrix.one_mulVec]

theorem solve_lyapunov_of_eq {m : ℕ} {a q x : Mat m}
    (hd : (lyapOp a).det ≠ 0) (hx : a * x + x * aᴴ = q) :
    solve_lyapunov a q = some x := by
  unfold solve_lyapunov
  rw [inv?_eq_some_inv hd]
  have hq : rvec q = lyapOp a *ᵥ rvec x := by rw [lyapOp_mulVec, hx]
  have : (lyapOp a)⁻¹ *ᵥ rvec q = rvec x := by
    rw [hq, Matrix.mulVec_mulVec, Matrix.nonsing_inv_mul _ (isUnit_iff_ne_zero.2 hd),
      Matrix.one_mulVec]
  show some (unflatten ((lyapOp a)⁻¹ *ᵥ rvec q)) = some x
  rw [this, unflatten_rvec]

theorem solve_lyapunov_unique {m : ℕ} {a q x y : Mat m}
    (h : solve_lyapunov a q = some x) (hy : a * y + y * aᴴ = q) : y = x := by
  obtain ⟨_, hd⟩ := solve_lyapunov_some_elim h
  have h2 := (solve_lyapunov_of_eq hd hy).symm.trans h
  exact Option.some_injective _ h2

theorem direct_inverse_some_elim {m : ℕ} {T Q S : Mat m}
    (h : direct_inverse T Q = some S) :
    S = T * S * Tᴴ + Q ∧ (1 - kron T (conjm T)).det ≠ 0 := by
  unfold direct_inverse at h
  cases hinv : inv? (1 - kron T (conjm T)) with
  | none => rw [hinv] at h; cases h
  | some Mi =>
    rw [hinv] at h
    obtain ⟨hd, hM⟩ := inv?_some_elim hinv
    have hS : S = unflatten (Mi *ᵥ rvec Q) := (Option.some_injective _ h).symm
    have hu : IsUnit (1 - kron T (conjm T)).det := isUnit_iff_ne_zero.2 hd
    refine ⟨?_, hd⟩
    rw [← stein_iff, hS, rvec_unflatten, hM, Matrix.mulVec_mulVec,
      Matrix.mul_nonsing_inv _ hu, Matrix.one_mulVec]

theorem direct_inverse_of_det {m : ℕ} {T Q : Mat m}
    (hd : (1 - kron T (conjm T)).det ≠ 0) :
    direct_inverse T Q = some (unflatten ((1 - kron T (conjm T))⁻¹ *ᵥ rvec Q)) := by
  unfold direct_inverse
  rw [inv?_eq_some_inv hd]
  rfl

theorem stein_unique {m : ℕ} {T Q S₁ S₂ : Mat m}
    (hd : (1 - kron T (conjm T)).det ≠ 0)
    (h₁ : S₁ = T * S₁ * Tᴴ + Q) (h₂ : S₂ = T * S₂ * Tᴴ + Q) : S₁ = S₂ := by
  have e₁ := (stein_iff T Q S₁).2 h₁
  have e₂ := (stein_iff T Q S₂).2 h₂
  have hu : IsUnit (1 - kron T (conjm T)).det := isUnit_iff_ne_zero.2 hd
  apply rvec_inj
  have h3 := congrArg (fun v => (1 - kron T (conjm T))⁻¹ *ᵥ v) (e₁.trans e₂.symm)
  simpa only [Matrix.mulVec_mulVec, Matrix.nonsing_inv_mul _ hu,
    Matrix.one_mulVec] using h3

theorem conjTranspose_sub_one {m : ℕ} (T : Mat m) : (Tᴴ - 1 : Mat m)ᴴ = T - 1 := by
  simp [Matrix.conjTranspose_sub, Matrix.conjTranspose_one,
    Matrix.conjTranspose_conjTranspose]

theorem conjTranspose_add_one {m : ℕ} (T : Mat m) : (Tᴴ + 1 : Mat m)ᴴ = T + 1 := by
  simp [Matrix.conjTranspose_add, Matrix.conjTranspose_one,
    Matrix.conjTranspose_conjTranspose]

theorem two_mat_conjTranspose {m : ℕ} : ((2 : Mat m))ᴴ = 2 := by
  rw [show (2 : Mat m) = 1 + 1 from one_add_one_eq_two.symm,
    Matrix.conjTranspose_add, Matrix.conjTranspose_one]

theorem two_mat_smul {m : ℕ} : (2 : Mat m) = (2 : GaussQ) • (1 : Mat m) := by
  rw [two_smul]
  exact one_add_one_eq_two.symm

theorem bilinear1_some_elim {m : ℕ} {T Q S : Mat m} (h : bilinear1 T Q = some S) :
    (Tᴴ - 1).det ≠ 0 ∧
    ∃ X : Mat m,
      solve_lyapunov ((Tᴴ - 1)⁻¹ * (Tᴴ + 1))ᴴ (-Q) = some X ∧
      ((Tᴴ - 1)⁻¹ * (Tᴴ + 1))ᴴ * X + X * ((Tᴴ - 1)⁻¹ * (Tᴴ + 1)) = -Q ∧
      S = (2 : GaussQ)⁻¹ •
        (((Tᴴ - 1)⁻¹ * (Tᴴ + 1) - 1)ᴴ * X * ((Tᴴ - 1)⁻¹ * (Tᴴ + 1) - 1)) := by
  unfold bilinear1 at h
  cases hinv : inv? (Tᴴ - 1) with
  | none => rw [hinv] at h; cases h
  | some Mi =>
    rw [hinv] at h
    obtain ⟨hd, hM⟩ := inv?_some_elim hinv
    subst hM
    simp only [Option.some_bind] at h
    cases hs : solve_lyapunov (((Tᴴ - 1)⁻¹ * (Tᴴ + 1))ᴴ) (-Q) with
    | none => rw [hs] at h; cases h
    | some X =>
      rw [hs] at h
      simp only [Option.map_some'] at h
      refine ⟨hd, X, rfl, ?_, (Option.some_injective _ h).symm⟩
      have h2 := (solve_lyapunov_some_elim hs).1
      rwa [Matrix.conjTranspose_conjTranspose] at h2

theorem bilinear2_some_elim {m : ℕ} {T Q S : Mat m} (h : bilinear2 T Q = some S) :
    (Tᴴ + 1).det ≠ 0 ∧ (T + 1).det ≠ 0 ∧
      (((Tᴴ - 1) * (Tᴴ + 1)⁻¹)ᴴ * S + S * ((Tᴴ - 1) * (Tᴴ + 1)⁻¹)
        = -((2 : GaussQ) • ((T + 1)⁻¹ * Q * (Tᴴ + 1)⁻¹))) ∧
      solve_lyapunov ((Tᴴ - 1) * (Tᴴ + 1)⁻¹)ᴴ
        (-((2 : GaussQ) • ((T + 1)⁻¹ * Q * (Tᴴ + 1)⁻¹))) = some S := by
  unfold bilinear2 at h
  cases h1 : inv? (Tᴴ + 1) with
  | none => rw [h1] at h; cases h
  | some AIinv =>
    rw [h1] at h
    obtain ⟨hd1, hA⟩ := inv?_some_elim h1
    subst hA
    simp only [Option.some_bind] at h
    rw [show (Tᴴᴴ : Mat m) = T from Matrix.conjTranspose_conjTranspose T] at h
    cases h2 : inv? (T + 1) with
    | none => rw [h2] at h; cases h
    | some Ci =>
      rw [h2] at h
      obtain ⟨hd2, hC⟩ := inv?_some_elim h2
      subst hC
      simp only [Option.some_bind] at h
      have h3 := (solve_lyapunov_some_elim h).1
      rw [Matrix.conjTranspose_conjTranspose] at h3
      exact ⟨hd1, hd2, h3, h⟩

theorem bilinear1_eq {m : ℕ} {T Q S : Mat m} (h : bilinear1 T Q = some S) :
    S = T * S * Tᴴ + Q := by
  obtain ⟨hd, X, _, heq, hS⟩ := bilinear1_some_elim h
  have hdc : (T - 1).det ≠ 0 := by
    rw [(conjTranspose_sub_one T).symm, Matrix.det_conjTranspose]
    exact star_ne_zero.2 hd
  have hu' : IsUnit (Tᴴ - 1).det := isUnit_iff_ne_zero.2 hd
  have hu : IsUnit (T - 1).det := isUnit_iff_ne_zero.2 hdc
  have hPH : (((Tᴴ - 1 : Mat m))⁻¹)ᴴ = (T - 1)⁻¹ := by
    rw [Matrix.conjTranspose_nonsing_inv, conjTranspose_sub_one]
  have hBH : (((Tᴴ - 1)⁻¹ * (Tᴴ + 1) : Mat m))ᴴ = (T + 1) * (T - 1)⁻¹ := by
    rw [Matrix.conjTranspose_mul, hPH, conjTranspose_add_one]
  have hTP : T * (T - 1)⁻¹ = 1 + (T - 1)⁻¹ := by
    have e : T * (T - 1)⁻¹ = (T - 1) * (T - 1)⁻¹ + (T - 1)⁻¹ := by noncomm_ring
    rw [e, Matrix.mul_nonsing_inv _ hu]
  have hP'T : (Tᴴ - 1)⁻¹ * Tᴴ = 1 + (Tᴴ - 1)⁻¹ := by
    have e : (Tᴴ - 1)⁻¹ * Tᴴ = (Tᴴ - 1)⁻¹ * (Tᴴ - 1) + (Tᴴ - 1)⁻¹ := by noncomm_ring
    rw [e, Matrix.nonsing_inv_mul _ hu']
  have hTP1 : (T + 1) * (T - 1)⁻¹ = 1 + ((T - 1)⁻¹ + (T - 1)⁻¹) := by
    have e : (T + 1) * (T - 1)⁻¹ = T * (T - 1)⁻¹ + (T - 1)⁻¹ := by noncomm_ring
    rw [e, hTP, add_assoc]
  have hP'T1 : (Tᴴ - 1)⁻¹ * (Tᴴ + 1) = 1 + ((Tᴴ - 1)⁻¹ + (Tᴴ - 1)⁻¹) := by
    have e : (Tᴴ - 1)⁻¹ * (Tᴴ + 1) = (Tᴴ - 1)⁻¹ * Tᴴ + (Tᴴ - 1)⁻¹ := by noncomm_ring
    rw [e, hP'T, add_assoc]
  have hB1 : ((Tᴴ - 1)⁻¹ * (Tᴴ + 1) - 1 : Mat m) = (Tᴴ - 1)⁻¹ * 2 := by
    have h1 : ((Tᴴ - 1)⁻¹ * (Tᴴ - 1) : Mat m) = 1 := Matrix.nonsing_inv_mul _ hu'
    calc ((Tᴴ - 1)⁻¹ * (Tᴴ + 1) - 1 : Mat m)
        = (Tᴴ - 1)⁻¹ * (Tᴴ + 1) - (Tᴴ - 1)⁻¹ * (Tᴴ - 1) := by rw [h1]
      _ = (Tᴴ - 1)⁻¹ * 2 := by noncomm_ring
  rw [hB1] at hS
  rw [Matrix.conjTranspose_mul, hPH, two_mat_conjTranspose] at hS
  rw [two_mat_smul] at hS
  simp only [smul_mul_assoc, mul_smul_comm, one_mul, mul_one, smul_smul] at hS
  rw [hBH, hTP1, hP'T1] at heq
  have hQ : Q = -((1 + ((T - 1)⁻¹ + (T - 1)⁻¹)) * X
      + X * (1 + ((Tᴴ - 1)⁻¹ + (Tᴴ - 1)⁻¹))) := by
    rw [heq, neg_neg]
  have hexp : T * ((T - 1)⁻¹ * X * (Tᴴ - 1)⁻¹) * Tᴴ
      = (1 + (T - 1)⁻¹) * X * (1 + (Tᴴ - 1)⁻¹) := by
    have e : T * ((T - 1)⁻¹ * X * (Tᴴ - 1)⁻¹) * Tᴴ
        = (T * (T - 1)⁻¹) * X * ((Tᴴ - 1)⁻¹ * Tᴴ) := by noncomm_ring
    rw [e, hTP, hP'T]
  rw [hS, mul_smul_comm, smul_mul_assoc, hexp, hQ]
  rw [show ((2 : GaussQ)⁻¹ * (2 * 2)) = 2 from by
    rw [GaussQ.eq_iff]
    norm_num]
  rw [two_smul, two_smul]
  noncomm_ring

theorem bilinear2_eq {m : ℕ} {T Q S : Mat m} (h : bilinear2 T Q = some S) :
    S = T * S * Tᴴ + Q := by
  obtain ⟨hd1, hd2, heq, _⟩ := bilinear2_some_elim h
  have hu1 : IsUnit (Tᴴ + 1).det := isUnit_iff_ne_zero.2 hd1
  have hu2 : IsUnit (T + 1).det := isUnit_iff_ne_zero.2 hd2
  have hRH : (((Tᴴ + 1 : Mat m))⁻¹)ᴴ = (T + 1)⁻¹ := by
    rw [Matrix.conjTranspose_nonsing_inv, conjTranspose_add_one]
  have hBH : (((Tᴴ - 1) * (Tᴴ + 1)⁻¹ : Mat m))ᴴ = (T + 1)⁻¹ * (T - 1) := by
    rw [Matrix.conjTranspose_mul, hRH, conjTranspose_sub_one]
  rw [hBH] at heq
  have h3 := congrArg (fun M => (T + 1) * M * (Tᴴ + 1)) heq
  simp only [] at h3
  have hL : (T + 1) * ((T + 1)⁻¹ * (T - 1) * S + S * ((Tᴴ - 1) * (Tᴴ + 1)⁻¹)) * (Tᴴ + 1)
      = (T + 1) * ((T + 1)⁻¹ * (T - 1) * S) * (Tᴴ + 1)
        + (T + 1) * (S * ((Tᴴ - 1) * (Tᴴ + 1)⁻¹)) * (Tᴴ + 1) := by
    noncomm_ring
  have hR : (T + 1) * (-((2 : GaussQ) • ((T + 1)⁻¹ * Q * (Tᴴ + 1)⁻¹))) * (Tᴴ + 1)
      = -((T + 1) * ((2 : GaussQ) • ((T + 1)⁻¹ * Q * (Tᴴ + 1)⁻¹)) * (Tᴴ + 1)) := by
    rw [mul_neg, neg_mul]
  rw [hL, hR] at h3
  have c1 : (T + 1) * ((T + 1)⁻¹ * (T - 1) * S) * (Tᴴ + 1)
      = (T - 1) * S * (Tᴴ + 1) := by
    have e : (T + 1) * ((T + 1)⁻¹ * (T - 1) * S) * (Tᴴ + 1)
        = ((T + 1) * (T + 1)⁻¹) * ((T - 1) * S * (Tᴴ + 1)) := by noncomm_ring
    rw [e, Matrix.mul_nonsing_inv _ hu2, Matrix.one_mul]
  have c2 : (T + 1) * (S * ((Tᴴ - 1) * (Tᴴ + 1)⁻¹)) * (Tᴴ + 1)
      = (T + 1) * S * (Tᴴ - 1) := by
    have e : (T + 1) * (S * ((Tᴴ - 1) * (Tᴴ + 1)⁻¹)) * (Tᴴ + 1)
        = ((T + 1) * S * (Tᴴ - 1)) * ((Tᴴ + 1)⁻¹ * (Tᴴ + 1)) := by noncomm_ring
    rw [e, Matrix.nonsing_inv_mul _ hu1, Matrix.mul_one]
  have c3 : (T + 1) * ((2 : GaussQ) • ((T + 1)⁻¹ * Q * (Tᴴ + 1)⁻¹)) * (Tᴴ + 1)
      = (2 : GaussQ) • Q := by
    rw [mul_smul_comm, smul_mul_assoc]
    congr 1
    have e : (T + 1) * ((T + 1)⁻¹ * Q * (Tᴴ + 1)⁻¹) * (Tᴴ + 1)
        = ((T + 1) * (T + 1)⁻¹) * Q * ((Tᴴ + 1)⁻¹ * (Tᴴ + 1)) := by noncomm_ring
    rw [e, Matrix.mul_nonsing_inv _ hu2, Matrix.nonsing_inv_mul _ hu1,
      Matrix.one_mul, Matrix.mul_one]
  rw [c1, c2, c3] at h3
  have expand2 : (T - 1) * S * (Tᴴ + 1) + (T + 1) * S * (Tᴴ - 1)
      = (2 : GaussQ) • (T * S * Tᴴ) - (2 : GaussQ) • S := by
    rw [two_smul, two_smul]
    noncomm_ring
  rw [expand2] at h3
  have h4 : (2 : GaussQ) • (T * S * Tᴴ - S) = (2 : GaussQ) • (-Q) := by
    rw [smul_sub, smul_neg]
    exact h3
  have h5 : T * S * Tᴴ - S = -Q := by
    have h2z : (2 : GaussQ) ≠ 0 := by
      rw [Ne, GaussQ.eq_iff]
      norm_num
    exact smul_right_injective (Mat m) h2z h4
  have h6 := congrArg Neg.neg h5
  rw [neg_sub, neg_neg] at h6
  exact sub_eq_iff_eq_add'.1 h6

theorem star_two_inv : star ((2 : GaussQ)⁻¹) = (2 : GaussQ)⁻¹ := by
  rw [GaussQ.eq_iff]
  norm_num

theorem star_two : star (2 : GaussQ) = 2 := by
  rw [GaussQ.eq_iff]
  norm_num

theorem direct_hermitian {m : ℕ} {T Q S : Mat m} (hQ : Qᴴ = Q)
    (h : direct_inverse T Q = some S) : Sᴴ = S := by
  obtain ⟨heq, hd⟩ := direct_inverse_some_elim h
  have heq2 : Sᴴ = T * Sᴴ * Tᴴ + Q := by
    have h2 := congrArg Matrix.conjTranspose heq
    rw [Matrix.conjTranspose_add, Matrix.conjTranspose_mul, Matrix.conjTranspose_mul,
      Matrix.conjTranspose_conjTranspose, hQ, ← Matrix.mul_assoc] at h2
    exact h2
  exact stein_unique hd heq2 heq

theorem solve_hermitian {m : ℕ} {a q x : Mat m} (hq : qᴴ = q)
    (h : solve_lyapunov a q = some x) : xᴴ = x := by
  obtain ⟨heq, _⟩ := solve_lyapunov_some_elim h
  have heq2 : a * xᴴ + xᴴ * aᴴ = q := by
    have h2 := congrArg Matrix.conjTranspose heq
    rw [Matrix.conjTranspose_add, Matrix.conjTranspose_mul, Matrix.conjTranspose_mul,
      Matrix.conjTranspose_conjTranspose, hq, add_comm] at h2
    exact h2
  exact solve_lyapunov_unique h heq2

theorem bilinear1_hermitian {m : ℕ} {T Q S : Mat m} (hQ : Qᴴ = Q)
    (h : bilinear1 T Q = some S) : Sᴴ = S := by
  obtain ⟨hd, X, hsolve, _, hS⟩ := bilinear1_some_elim h
  have hXh : Xᴴ = X := by
    refine solve_hermitian ?_ hsolve
    rw [Matrix.conjTranspose_neg, hQ]
  rw [hS, Matrix.conjTranspose_smul, Matrix.conjTranspose_mul, Matrix.conjTranspose_mul,
    Matrix.conjTranspose_conjTranspose, hXh, star_two_inv, ← Matrix.mul_assoc]

theorem bilinear2_hermitian {m : ℕ} {T Q S : Mat m} (hQ : Qᴴ = Q)
    (h : bilinear2 T Q = some S) : Sᴴ = S := by
  obtain ⟨hd1, hd2, _, hsolve⟩ := bilinear2_some_elim h
  refine solve_hermitian ?_ hsolve
  rw [Matrix.conjTranspose_neg, Matrix.conjTranspose_smul, Matrix.conjTranspose_mul,
    Matrix.conjTranspose_mul, Matrix.conjTranspose_nonsing_inv,
    Matrix.conjTranspose_nonsing_inv, conjTranspose_add_one, hQ, star_two,
    ← Matrix.mul_assoc]
  congr 2
  rw [Matrix.conjTranspose_add, Matrix.conjTranspose_one]

@[simp] theorem kron_apply {m : ℕ} (A B : Mat m) (p q : Fin m × Fin m) :
    kron A B p q = A p.1 q.1 * B p.2 q.2 := rfl

@[simp] theorem conjm_apply {m : ℕ} (A : Mat m) (i j : Fin m) :
    conjm A i j = star (A i j) := rfl

@[simp] theorem rvec_apply {m : ℕ} (Q : Mat m) (p : Fin m × Fin m) :
    rvec Q p = Q p.1 p.2 := rfl

@[simp] theorem unflatten_apply {m : ℕ} (v : Fin m × Fin m → GaussQ) (i j : Fin m) :
    unflatten v i j = v (i, j) := rfl

@[simp] theorem cvec_apply {m : ℕ} (Q : Mat m) (p : Fin m × Fin m) :
    cvec Q p = Q p.2 p.1 := rfl

@[simp] theorem unflattenCol_apply {m : ℕ} (v : Fin m × Fin m → GaussQ) (i j : Fin m) :
    unflattenCol v i j = v (j, i) := rfl

@[simp] theorem default_fin1 : (default : Fin 1) = 0 := rfl

@[simp] theorem default_pair1 : (default : Fin 1 × Fin 1) = (0, 0) := rfl

theorem det_big1 (M : BigMat 1) : M.det = M (0, 0) (0, 0) := Matrix.det_unique M

theorem det_mat1 (M : Mat 1) : M.det = M 0 0 := Matrix.det_unique M

theorem inv?_big1 {M : BigMat 1} (h : M (0, 0) (0, 0) ≠ 0) :
    inv? M = some ((M (0, 0) (0, 0))⁻¹ • 1) := by
  unfold inv?
  rw [if_neg (by rw [det_big1]; exact h), det_big1, Matrix.adjugate_subsingleton]

theorem inv?_big1_none {M : BigMat 1} (h : M (0, 0) (0, 0) = 0) : inv? M = none := by
  unfold inv?
  rw [if_pos (by rw [det_big1]; exact h)]

theorem inv?_mat1 {M : Mat 1} (h : M 0 0 ≠ 0) :
    inv? M = some ((M 0 0)⁻¹ • 1) := by
  unfold inv?
  rw [if_neg (by rw [det_mat1]; exact h), det_mat1, Matrix.adjugate_subsingleton]

theorem inv?_mat1_none {M : Mat 1} (h : M 0 0 = 0) : inv? M = none := by
  unfold inv?
  rw [if_pos (by rw [det_mat1]; exact h)]

theorem eval_direct_Thalf : direct_inverse Thalf Qone = some Sig43 := by
  have hne : (1 - kron Thalf (conjm Thalf)) (0, 0) (0, 0) ≠ 0 := by
    rw [Ne, GaussQ.eq_iff]
    norm_num [Thalf, Matrix.one_apply]
  unfold direct_inverse
  rw [inv?_big1 hne]
  simp only [Option.map_some']
  refine congrArg some ?_
  ext i j
  have hi : i = 0 := Subsingleton.elim i 0
  have hj : j = 0 := Subsingleton.elim j 0
  subst hi
  subst hj
  rw [GaussQ.eq_iff]
  norm_num [Thalf, Qone, Sig43, Matrix.one_apply, Matrix.mulVec, Matrix.dotProduct,
    Fintype.sum_unique]

theorem solve_lyapunov_mat1 (a q : Mat 1) (h : a 0 0 + star (a 0 0) ≠ 0) :
    solve_lyapunov a q
      = some (Matrix.of ![![(a 0 0 + star (a 0 0))⁻¹ * q 0 0]]) := by
  apply solve_lyapunov_of_eq
  · rw [det_big1]
    simpa [lyapOp, Matrix.one_apply] using h
  · ext i j
    have hi : i = 0 := Subsingleton.elim i 0
    have hj : j = 0 := Subsingleton.elim j 0
    subst hi
    subst hj
    simp [Matrix.mul_apply, Fin.sum_univ_one, Matrix.conjTranspose_apply,
      Matrix.vecMul, Matrix.dotProduct]
    field_simp
    ring

theorem solve_lyapunov_mat1_none (a q : Mat 1) (h : a 0 0 + star (a 0 0) = 0) :
    solve_lyapunov a q = none := by
  unfold solve_lyapunov
  rw [inv?_big1_none (by simpa [lyapOp, Matrix.one_apply] using h)]
  rfl

theorem direct_inverse_mat1 (t q : GaussQ) (h : 1 - t * star t ≠ 0) :
    direct_inverse (Matrix.of ![![t]]) (Matrix.of ![![q]])
      = some (Matrix.of ![![(1 - t * star t)⁻¹ * q]]) := by
  unfold direct_inverse
  have hM : (1 - kron (Matrix.of ![![t]]) (conjm (Matrix.of ![![t]]))) (0, 0) (0, 0)
      = 1 - t * star t := by
    simp [Matrix.one_apply]
  rw [inv?_big1 (by rw [hM]; exact h)]
  simp only [Option.map_some']
  refine congrArg some ?_
  ext i j
  have hi : i = 0 := Subsingleton.elim i 0
  have hj : j = 0 := Subsingleton.elim j 0
  subst hi
  subst hj
  simp [hM, Matrix.mulVec, Matrix.dotProduct, Fintype.sum_unique]

theorem direct_inverse_mat1_none_iff (t q : GaussQ) :
    direct_inverse (Matrix.of ![![t]]) (Matrix.of ![![q]]) = none ↔ t * star t = 1 := by
  unfold direct_inverse
  rw [Option.map_eq_none', inv?_none_iff, det_big1]
  have hM : (1 - kron (Matrix.of ![![t]]) (conjm (Matrix.of ![![t]]))) (0, 0) (0, 0)
      = 1 - t * star t := by
    simp [Matrix.one_apply]
  rw [hM, sub_eq_zero, eq_comm]

theorem eval_b1_Thalf : bilinear1 Thalf Qone = some Sig43 := by
  unfold bilinear1
  have h1 : (Thalfᴴ - 1) 0 0 ≠ 0 := by
    rw [Ne, GaussQ.eq_iff]
    norm_num [Thalf, Matrix.one_apply]
  rw [inv?_mat1 h1]
  simp only [Option.some_bind]
  rw [solve_lyapunov_mat1 _ _ (by
    rw [Ne, GaussQ.eq_iff]
    norm_num [Thalf, Matrix.one_apply, Matrix.mul_apply, Fin.sum_univ_one])]
  simp only [Option.map_some']
  refine congrArg some ?_
  ext i j
  have hi : i = 0 := Subsingleton.elim i 0
  have hj : j = 0 := Subsingleton.elim j 0
  subst hi
  subst hj
  rw [GaussQ.eq_iff]
  norm_num [Thalf, Qone, Sig43, Matrix.one_apply, Matrix.mul_apply, Fin.sum_univ_one]

theorem eval_b2_Thalf : bilinear2 Thalf Qone = some Sig43 := by
  unfold bilinear2
  have h1 : (Thalfᴴ + 1) 0 0 ≠ 0 := by
    rw [Ne, GaussQ.eq_iff]
    norm_num [Thalf, Matrix.one_apply]
  rw [inv?_mat1 h1]
  simp only [Option.some_bind]
  have h2 : (Thalfᴴᴴ + 1) 0 0 ≠ 0 := by
    rw [Ne, GaussQ.eq_iff]
    norm_num [Thalf, Matrix.one_apply]
  rw [inv?_mat1 h2]
  simp only [Option.some_bind]
  rw [solve_lyapunov_mat1 _ _ (by
    rw [Ne, GaussQ.eq_iff]
    norm_num [Thalf, Matrix.one_apply, Matrix.mul_apply, Fin.sum_univ_one])]
  refine congrArg some ?_
  ext i j
  have hi : i = 0 := Subsingleton.elim i 0
  have hj : j = 0 := Subsingleton.elim j 0
  subst hi
  subst hj
  rw [GaussQ.eq_iff]
  norm_num [Thalf, Qone, Sig43, Matrix.one_apply, Matrix.mul_apply, Fin.sum_univ_one]

theorem eval_direct_Ttwo : direct_inverse Ttwo Qone = some SigNegThird := by
  unfold Ttwo Qone
  rw [direct_inverse_mat1 _ _ (by
    rw [Ne, GaussQ.eq_iff]
    norm_num)]
  refine congrArg some ?_
  ext i j
  have hi : i = 0 := Subsingleton.elim i 0
  have hj : j = 0 := Subsingleton.elim j 0
  subst hi
  subst hj
  rw [GaussQ.eq_iff]
  norm_num [SigNegThird]

theorem eval_direct_Tone : direct_inverse Tone Qone = none := by
  unfold Tone Qone
  rw [direct_inverse_mat1_none_iff]
  rw [GaussQ.eq_iff]
  norm_num

theorem eval_direct_Timag : direct_inverse Timag Qone = none := by
  unfold Timag Qone
  rw [direct_inverse_mat1_none_iff]
  rw [GaussQ.eq_iff]
  norm_num

theorem eval_b1_Tone : bilinear1 Tone Qone = none := by
  unfold bilinear1
  rw [inv?_mat1_none (by
    rw [GaussQ.eq_iff]
    norm_num [Tone, Matrix.one_apply])]
  rfl

theorem eval_b2_Tone : bilinear2 Tone Qone = none := by
  unfold bilinear2
  have h1 : (Toneᴴ + 1) 0 0 ≠ 0 := by
    rw [Ne, GaussQ.eq_iff]
    norm_num [Tone, Matrix.one_apply]
  rw [inv?_mat1 h1]
  simp only [Option.some_bind]
  have h2 : (Toneᴴᴴ + 1) 0 0 ≠ 0 := by
    rw [Ne, GaussQ.eq_iff]
    norm_num [Tone, Matrix.one_apply]
  rw [inv?_mat1 h2]
  simp only [Option.some_bind]
  rw [solve_lyapunov_mat1_none _ _ (by
    rw [GaussQ.eq_iff]
    norm_num [Tone, Matrix.one_apply, Matrix.mul_apply, Fin.sum_univ_one])]

theorem eval_b2_Tminus1 : bilinear2 Tminus1 Qone = none := by
  unfold bilinear2
  rw [inv?_mat1_none (by
    rw [GaussQ.eq_iff]
    norm_num [Tminus1, Matrix.one_apply])]
  rfl

theorem eval_direct_Qimag : direct_inverse Thalf Qimag = some SigImag := by
  unfold Thalf Qimag
  rw [direct_inverse_mat1 _ _ (by
    rw [Ne, GaussQ.eq_iff]
    norm_num)]
  refine congrArg some ?_
  ext i j
  have hi : i = 0 := Subsingleton.elim i 0
  have hj : j = 0 := Subsingleton.elim j 0
  subst hi
  subst hj
  rw [GaussQ.eq_iff]
  norm_num [SigImag]

theorem eval_b2_Qimag : bilinear2 Thalf Qimag = some SigImag := by
  unfold bilinear2
  have h1 : (Thalfᴴ + 1) 0 0 ≠ 0 := by
    rw [Ne, GaussQ.eq_iff]
    norm_num [Thalf, Matrix.one_apply]
  rw [inv?_mat1 h1]
  simp only [Option.some_bind]
  have h2 : (Thalfᴴᴴ + 1) 0 0 ≠ 0 := by
    rw [Ne, GaussQ.eq_iff]
    norm_num [Thalf, Matrix.one_apply]
  rw [inv?_mat1 h2]
  simp only [Option.some_bind]
  rw [solve_lyapunov_mat1 _ _ (by
    rw [Ne, GaussQ.eq_iff]
    norm_num [Thalf, Matrix.one_apply, Matrix.mul_apply, Fin.sum_univ_one])]
  refine congrArg some ?_
  ext i j
  have hi : i = 0 := Subsingleton.elim i 0
  have hj : j = 0 := Subsingleton.elim j 0
  subst hi
  subst hj
  rw [GaussQ.eq_iff]
  norm_num [Thalf, Qimag, SigImag, Matrix.one_apply, Matrix.mul_apply, Fin.sum_univ_one]

theorem Qone_hermitian : Qoneᴴ = Qone := by
  ext i j
  have hi : i = 0 := Subsingleton.elim i 0
  have hj : j = 0 := Subsingleton.elim j 0
  subst hi
  subst hj
  rw [GaussQ.eq_iff]
  norm_num [Qone]

theorem Qimag_not_hermitian : Qimagᴴ ≠ Qimag := by
  intro hcontra
  have h2 := congrFun (congrFun hcontra 0) 0
  rw [GaussQ.eq_iff] at h2
  norm_num [Qimag] at h2

theorem Tdiag_inv_prod :
    (1 - kron Tdiag (conjm Tdiag)) * (Matrix.diagonal fun p : Fin 2 × Fin 2 =>
      if p = (0, 0) then (⟨4/3, 0⟩ : GaussQ) else if p = (0, 1) then ⟨16/17, 4/17⟩
      else if p = (1, 0) then ⟨16/17, -4/17⟩ else ⟨4/3, 0⟩) = 1 := by
  ext p q
  obtain ⟨i, r⟩ := p
  obtain ⟨j, s⟩ := q
  fin_cases i <;> fin_cases r <;> fin_cases j <;> fin_cases s <;>
    · rw [GaussQ.eq_iff]
      norm_num [Tdiag, Matrix.mul_apply, Matrix.one_apply, Matrix.diagonal_apply,
        Fintype.sum_prod_type, Fin.sum_univ_two, Prod.ext_iff, Fin.ext_iff]

theorem eval_direct_Tdiag :
    direct_inverse Tdiag Qones
      = some (Matrix.of ![![⟨4/3, 0⟩, ⟨16/17, 4/17⟩], ![⟨16/17, -4/17⟩, ⟨4/3, 0⟩]]) := by
  unfold direct_inverse
  rw [inv?_of_mul_eq_one Tdiag_inv_prod]
  simp only [Option.map_some']
  refine congrArg some ?_
  ext i j
  fin_cases i <;> fin_cases j <;>
    · rw [GaussQ.eq_iff]
      norm_num [Qones, Matrix.mulVec, Matrix.dotProduct, Matrix.diagonal_apply,
        Fintype.sum_prod_type, Fin.sum_univ_two, Prod.ext_iff, Fin.ext_iff]

theorem eval_colmajor_Tdiag :
    direct_inverse_colmajor Tdiag Qones
      = some (Matrix.of ![![⟨4/3, 0⟩, ⟨16/17, -4/17⟩], ![⟨16/17, 4/17⟩, ⟨4/3, 0⟩]]) := by
  unfold direct_inverse_colmajor
  rw [inv?_of_mul_eq_one Tdiag_inv_prod]
  simp only [Option.map_some']
  refine congrArg some ?_
  ext i j
  fin_cases i <;> fin_cases j <;>
    · rw [GaussQ.eq_iff]
      norm_num [Qones, Matrix.mulVec, Matrix.dotProduct, Matrix.diagonal_apply,
        Fintype.sum_prod_type, Fin.sum_univ_two, Prod.ext_iff, Fin.ext_iff]

theorem detH_sub_one {m : ℕ} (T : Mat m) : (Tᴴ - 1 : Mat m).det = star (T - 1).det := by
  have h : (Tᴴ - 1 : Mat m) = (T - 1)ᴴ := by
    rw [Matrix.conjTranspose_sub, Matrix.conjTranspose_one]
  rw [h, Matrix.det_conjTranspose]

theorem detH_add_one {m : ℕ} (T : Mat m) : (Tᴴ + 1 : Mat m).det = star (T + 1).det := by
  have h : (Tᴴ + 1 : Mat m) = (T + 1)ᴴ := by
    rw [Matrix.conjTranspose_add, Matrix.conjTranspose_one]
  rw [h, Matrix.det_conjTranspose]

theorem bilinear1_none_of {m : ℕ} (T Q : Mat m) (h : (T - 1).det = 0) :
    bilinear1 T Q = none := by
  unfold bilinear1
  rw [(inv?_none_iff _).2 (by rw [detH_sub_one, h, star_zero])]
  rfl

theorem lyapOp_det_zero_of_det_zero {m : ℕ} {a : Mat m} (h : a.det = 0) :
    (lyapOp a).det = 0 := by
  obtain ⟨u, hu0, hau⟩ := Matrix.exists_mulVec_eq_zero_iff.2 h
  obtain ⟨i0, hi0⟩ := Function.ne_iff.1 hu0
  refine Matrix.exists_mulVec_eq_zero_iff.1
    ⟨rvec (Matrix.of fun i j => u i * star (u j)), ?_, ?_⟩
  · intro hc
    have h4 := congrFun hc (i0, i0)
    simp only [rvec_apply, Matrix.of_apply, Pi.zero_apply] at h4
    rcases mul_eq_zero.1 h4 with h5 | h5
    · exact hi0 h5
    · exact hi0 (star_eq_zero.1 h5)
  · rw [lyapOp_mulVec]
    have hx1 : a * (Matrix.of fun i j => u i * star (u j)) = 0 := by
      ext i j
      have h5 : (∑ k, a i k * u k) = 0 := by
        have h6 := congrFun hau i
        simpa [Matrix.mulVec, Matrix.dotProduct] using h6
      calc (a * Matrix.of fun i j => u i * star (u j)) i j
          = ∑ k, a i k * (u k * star (u j)) := by
            simp [Matrix.mul_apply]
        _ = (∑ k, a i k * u k) * star (u j) := by
            rw [Finset.sum_mul]
            exact Finset.sum_congr rfl fun k _ => by ring
        _ = 0 := by rw [h5, zero_mul]
        _ = (0 : Mat m) i j := by simp
    have hx2 : (Matrix.of fun i j => u i * star (u j)) * aᴴ = 0 := by
      ext i j
      have h5 : (∑ k, a j k * u k) = 0 := by
        have h6 := congrFun hau j
        simpa [Matrix.mulVec, Matrix.dotProduct] using h6
      calc (Matrix.of (fun i j => u i * star (u j)) * aᴴ) i j
          = ∑ k, u i * star (u k) * star (a j k) := by
            simp [Matrix.mul_apply, Matrix.conjTranspose_apply]
        _ = u i * star (∑ k, a j k * u k) := by
            rw [star_sum, Finset.mul_sum]
            exact Finset.sum_congr rfl fun k _ => by
              rw [star_mul']
              ring
        _ = 0 := by rw [h5, star_zero, mul_zero]
        _ = (0 : Mat m) i j := by simp
    rw [hx1, hx2, add_zero]
    rfl

theorem bilinear2_none_of {m : ℕ} (T Q : Mat m) (h : (T - 1).det = 0) :
    bilinear2 T Q = none := by
  unfold bilinear2
  by_cases h2 : (Tᴴ + 1).det = 0
  · rw [(inv?_none_iff _).2 h2]
    rfl
  · rw [inv?_eq_some_inv h2]
    simp only [Option.some_bind]
    rw [show (Tᴴᴴ : Mat m) = T from Matrix.conjTranspose_conjTranspose T]
    by_cases h3 : (T + 1).det = 0
    · rw [(inv?_none_iff _).2 h3]
      rfl
    · rw [inv?_eq_some_inv h3]
      simp only [Option.some_bind]
      unfold solve_lyapunov
      have hda : ((((Tᴴ - 1) * (Tᴴ + 1)⁻¹ : Mat m))ᴴ).det = 0 := by
        have hBH : (((Tᴴ - 1) * (Tᴴ + 1)⁻¹ : Mat m))ᴴ = (T + 1)⁻¹ * (T - 1) := by
          rw [Matrix.conjTranspose_mul, Matrix.conjTranspose_nonsing_inv,
            conjTranspose_add_one, conjTranspose_sub_one]
        rw [hBH, Matrix.det_mul, h, mul_zero]
      rw [(inv?_none_iff _).2 (lyapOp_det_zero_of_det_zero hda)]
      rfl

/-- C1: for every transition matrix `T` and every `Q`, the matrix returned by
each of the three solution methods (`direct_inverse`, `bilinear1`,
`bilinear2`) satisfies the discrete Lyapunov equation `S = T * S * Tᴴ + Q`
(exactly, in the exact-arithmetic model; the spec's `1e-8` relative tolerance
is the floating-point reading of exact satisfaction).  Stability of `T` and
Hermitian-ness of `Q` are not even needed: whenever a method returns a
matrix at all, that matrix solves the equation. -/
theorem C1_equation_satisfaction {m : ℕ} (T Q : Mat m) :
    (∀ S, direct_inverse T Q = some S → S = T * S * Tᴴ + Q) ∧
    (∀ S, bilinear1 T Q = some S → S = T * S * Tᴴ + Q) ∧
    (∀ S, bilinear2 T Q = some S → S = T * S * Tᴴ + Q) :=
  ⟨fun _ h => (direct_inverse_some_elim h).1,
   fun _ h => bilinear1_eq h,
   fun _ h => bilinear2_eq h⟩

/-- Witness for C1 at `T = [[1/2]]`, `Q = [[1]]`: the direct method returns
`[[4/3]]`, which satisfies the Lyapunov equation. -/
theorem C1_witness :
    direct_inverse Thalf Qone = some Sig43 ∧
      Sig43 = Thalf * Sig43 * Thalfᴴ + Qone :=
  ⟨eval_direct_Thalf,
   (C1_equation_satisfaction Thalf Qone).1 Sig43 eval_direct_Thalf⟩

/-- C2: whenever the direct method's linear operator is nonsingular (in
exact arithmetic; this holds in particular for every stable `T`, any `m`),
any two of the three methods that return a result return the same matrix
(exact equality, which is stronger than the spec's `1e-6` tolerance). -/
theorem C2_cross_method_agreement {m : ℕ} (T Q : Mat m)
    (hdet : (1 - kron T (conjm T)).det ≠ 0) :
    (∀ S₁ S₂, direct_inverse T Q = some S₁ → bilinear1 T Q = some S₂ → S₁ = S₂) ∧
    (∀ S₁ S₂, direct_inverse T Q = some S₁ → bilinear2 T Q = some S₂ → S₁ = S₂) ∧
    (∀ S₁ S₂, bilinear1 T Q = some S₁ → bilinear2 T Q = some S₂ → S₁ = S₂) :=
  ⟨fun _ _ h1 h2 => stein_unique hdet (direct_inverse_some_elim h1).1 (bilinear1_eq h2),
   fun _ _ h1 h2 => stein_unique hdet (direct_inverse_some_elim h1).1 (bilinear2_eq h2),
   fun _ _ h1 h2 => stein_unique hdet (bilinear1_eq h1) (bilinear2_eq h2)⟩

/-- Witness for C2 at `T = [[1/2]]`, `Q = [[1]]`: the nonsingularity
hypothesis holds and the direct and first bilinear results agree. -/
theorem C2_witness :
    (1 - kron Thalf (conjm Thalf)).det ≠ 0 ∧ Sig43 = Sig43 := by
  have hdet : (1 - kron Thalf (conjm Thalf)).det ≠ 0 := by
    rw [det_big1, Ne, GaussQ.eq_iff]
    norm_num [Thalf, Matrix.one_apply]
  exact ⟨hdet, (C2_cross_method_agreement Thalf Qone hdet).1 Sig43 Sig43
    eval_direct_Thalf eval_b1_Thalf⟩

/-- C3: for the one-dimensional input `T = [[0.5]]`, `Q = [[1]]`, every
method returns `Sigma = [[4/3]]` (exactly: `sigma = 0.25*sigma + 1` implies
`sigma = 4/3`). -/
theorem C3_scalar_scenario :
    direct_inverse Thalf Qone = some Sig43 ∧
    bilinear1 Thalf Qone = some Sig43 ∧
    bilinear2 Thalf Qone = some Sig43 :=
  ⟨eval_direct_Thalf, eval_b1_Thalf, eval_b2_Thalf⟩

/-- Counterexample to C4: the code's vectorization convention is numpy's
row-major (C-order) `reshape`, not the column-major stacking stated by the
spec.  At the complex input `T = diag(i/2, 1/2)`, `Q` all ones (Hermitian
PSD), the column-major composition produces a different matrix than the
code: the off-diagonal entries come out conjugated. -/
theorem C4_column_major_counterexample :
    direct_inverse Tdiag Qones ≠ direct_inverse_colmajor Tdiag Qones := by
  rw [eval_direct_Tdiag, eval_colmajor_Tdiag]
  intro hcon
  have h2 := congrFun (congrFun (Option.some_injective _ hcon) 0) 1
  rw [GaussQ.eq_iff] at h2
  norm_num at h2

/-- C4 as amended: the direct method builds `M = I - kron(T, conj(T))`,
vectorizes `Q` by ROW-major (C-order) stacking and reshapes `invert(M)·q`
back row-major; this row-major convention is the one that realizes
the vectorized discrete Lyapunov equation: the returned `S` satisfies
`M ·ᵥ rvec S = rvec Q` and hence `S = T * S * Tᴴ + Q`. -/
theorem C4_row_major_vectorization {m : ℕ} (T Q : Mat m) :
    ∀ S, direct_inverse T Q = some S →
      (1 - kron T (conjm T)) *ᵥ rvec S = rvec Q ∧ S = T * S * Tᴴ + Q := by
  intro S h
  have h1 := (direct_inverse_some_elim h).1
  exact ⟨(stein_iff T Q S).2 h1, h1⟩

/-- Witness for the amended C4 at `T = [[1/2]]`, `Q = [[1]]`. -/
theorem C4_witness :
    direct_inverse Thalf Qone = some Sig43 ∧
    ((1 - kron Thalf (conjm Thalf)) *ᵥ rvec Sig43 = rvec Qone ∧
      Sig43 = Thalf * Sig43 * Thalfᴴ + Qone) :=
  ⟨eval_direct_Thalf, C4_row_major_vectorization Thalf Qone Sig43 eval_direct_Thalf⟩

/-- Counterexample to C5: `T = [[i]]` has its only eigenvalue pair product
`i * i = -1 ≠ 1`, yet the direct method fails (`I - kron(T, conj T) =
[[1 - i * conj i]] = [[0]]` is singular): the failure criterion involves
`λ_i * conj(λ_j) = 1`, not `λ_i * λ_j = 1`. -/
theorem C5_eigenvalue_pair_counterexample :
    Timag 0 0 * Timag 0 0 ≠ 1 ∧ direct_inverse Timag Qone = none := by
  constructor
  · rw [Ne, GaussQ.eq_iff]
    norm_num [Timag]
  · exact eval_direct_Timag

/-- C5 as amended: the direct method fails exactly when
`I - kron(T, conj T)` is singular, which over the complex numbers happens
exactly when some `λ_i * conj(λ_j) = 1` (`λ_i * λ_j = 1` in the claim is
wrong); in the 1-by-1 case the criterion is exactly `t * conj t = 1`,
i.e. `|t| = 1`. -/
theorem C5_direct_failure_criterion :
    (∀ (m : ℕ) (T Q : Mat m),
      direct_inverse T Q = none ↔ (1 - kron T (conjm T)).det = 0) ∧
    (∀ t q : GaussQ,
      direct_inverse (Matrix.of ![![t]]) (Matrix.of ![![q]]) = none ↔
        t * star t = 1) := by
  constructor
  · intro m T Q
    unfold direct_inverse
    rw [Option.map_eq_none', inv?_none_iff]
  · exact direct_inverse_mat1_none_iff

/-- Witness for the amended C5 at `t = i`, `q = 1`. -/
theorem C5_witness :
    direct_inverse Timag Qone = none ↔
      (⟨0, 1⟩ : GaussQ) * star (⟨0, 1⟩ : GaussQ) = 1 :=
  C5_direct_failure_criterion.2 ⟨0, 1⟩ ⟨1, 0⟩

/-- Counterexample to C6: `T = [[-1]]` has no eigenvalue equal to 1, yet
`bilinear2` fails: the matrix inverted inside variant 2 is `A + I = Tᴴ + I`,
which is singular when `T` has eigenvalue `-1`, not `1`. -/
theorem C6_eigenvalue_counterexample :
    Tminus1 0 0 ≠ 1 ∧ bilinear2 Tminus1 Qone = none := by
  constructor
  · rw [Ne, GaussQ.eq_iff]
    norm_num [Tminus1]
  · exact eval_b2_Tminus1

/-- C6 as amended: variant 1 inverts `A - I = Tᴴ - I`, which is singular iff
`T - I` is (iff `T` has eigenvalue 1); variant 2 inverts `A + I = Tᴴ + I`
(and `Aᴴ + I = T + I`), which is singular iff `T + I` is (iff `T` has
eigenvalue `-1`).  When `T` has eigenvalue 1, variant 1 fails at the
transform inversion and variant 2 also fails — at the transform inversion
when `T` additionally has eigenvalue `-1`, otherwise at the continuous
solve, whose operator is resonant there — so both variants do fail on
eigenvalue 1, just not always at the inversion claimed. -/
theorem C6_transform_singularity {m : ℕ} (T Q : Mat m) :
    ((Tᴴ - 1).det = 0 ↔ (T - 1).det = 0) ∧
    (inv? (Tᴴ - 1) = none ↔ (T - 1).det = 0) ∧
    ((Tᴴ + 1).det = 0 ↔ (T + 1).det = 0) ∧
    (inv? (Tᴴ + 1) = none ↔ (T + 1).det = 0) ∧
    ((T - 1).det = 0 → bilinear1 T Q = none ∧ bilinear2 T Q = none) := by
  refine ⟨?_, ?_, ?_, ?_, ?_⟩
  · rw [detH_sub_one, star_eq_zero]
  · rw [inv?_none_iff, detH_sub_one, star_eq_zero]
  · rw [detH_add_one, star_eq_zero]
  · rw [inv?_none_iff, detH_add_one, star_eq_zero]
  · intro h
    exact ⟨bilinear1_none_of T Q h, bilinear2_none_of T Q h⟩

/-- Witness for the amended C6 at `T = [[1]]`: `T - I` is singular and both
bilinear variants fail. -/
theorem C6_witness :
    (Tone - 1 : Mat 1).det = 0 ∧
      (bilinear1 Tone Qone = none ∧ bilinear2 Tone Qone = none) := by
  have hd : (Tone - 1 : Mat 1).det = 0 := by
    rw [det_mat1, GaussQ.eq_iff]
    norm_num [Tone]
  exact ⟨hd, (C6_transform_singularity Tone Qone).2.2.2.2 hd⟩

/-- C7: the two bilinear variants compute exactly the pipelines the spec
describes.  Whenever variant 1 returns `S`, the matrix `A - I = Tᴴ - I` was
invertible, `B = (A - I)⁻¹ (A + I)`, the intermediate `X` solves the
continuous Lyapunov equation `Bᴴ X + X B = -Q`, and
`S = 0.5 · (B - I)ᴴ X (B - I)`.  Whenever variant 2 returns `S`, with
`B = (A - I)(A + I)⁻¹` and `C = 2 (Aᴴ + I)⁻¹ Q (A + I)⁻¹` (`A = Tᴴ`), `S`
itself solves `Bᴴ S + S B = -C`, with no post-scaling. -/
theorem C7_bilinear_pipeline {m : ℕ} (T Q : Mat m) :
    (∀ S, bilinear1 T Q = some S →
      IsUnit (Tᴴ - 1).det ∧
      ∃ X, ((Tᴴ - 1)⁻¹ * (Tᴴ + 1))ᴴ * X + X * ((Tᴴ - 1)⁻¹ * (Tᴴ + 1)) = -Q ∧
        S = (2 : GaussQ)⁻¹ •
          (((Tᴴ - 1)⁻¹ * (Tᴴ + 1) - 1)ᴴ * X * ((Tᴴ - 1)⁻¹ * (Tᴴ + 1) - 1))) ∧
    (∀ S, bilinear2 T Q = some S →
      IsUnit (Tᴴ + 1).det ∧ IsUnit (T + 1).det ∧
      ((Tᴴ - 1) * (Tᴴ + 1)⁻¹)ᴴ * S + S * ((Tᴴ - 1) * (Tᴴ + 1)⁻¹)
        = -((2 : GaussQ) • ((T + 1)⁻¹ * Q * (Tᴴ + 1)⁻¹))) := by
  constructor
  · intro S h
    obtain ⟨hd, X, _, heq, hS⟩ := bilinear1_some_elim h
    exact ⟨isUnit_iff_ne_zero.2 hd, X, heq, hS⟩
  · intro S h
    obtain ⟨hd1, hd2, heq, _⟩ := bilinear2_some_elim h
    exact ⟨isUnit_iff_ne_zero.2 hd1, isUnit_iff_ne_zero.2 hd2, heq⟩

/-- Witness for C7 at `T = [[1/2]]`, `Q = [[1]]` through variant 1. -/
theorem C7_witness :
    bilinear1 Thalf Qone = some Sig43 ∧
    (IsUnit (Thalfᴴ - 1).det ∧
      ∃ X, ((Thalfᴴ - 1)⁻¹ * (Thalfᴴ + 1))ᴴ * X
            + X * ((Thalfᴴ - 1)⁻¹ * (Thalfᴴ + 1)) = -Qone ∧
        Sig43 = (2 : GaussQ)⁻¹ •
          (((Thalfᴴ - 1)⁻¹ * (Thalfᴴ + 1) - 1)ᴴ * X
            * ((Thalfᴴ - 1)⁻¹ * (Thalfᴴ + 1) - 1))) :=
  ⟨eval_b1_Thalf, (C7_bilinear_pipeline Thalf Qone).1 Sig43 eval_b1_Thalf⟩

/-- C8: for Hermitian input `Q`, every successful solve returns a Hermitian
matrix (`Sᴴ = S`, exactly). -/
theorem C8_hermitian_output {m : ℕ} (T Q : Mat m) (hQ : Qᴴ = Q) :
    (∀ S, direct_inverse T Q = some S → Sᴴ = S) ∧
    (∀ S, bilinear1 T Q = some S → Sᴴ = S) ∧
    (∀ S, bilinear2 T Q = some S → Sᴴ = S) :=
  ⟨fun _ h => direct_hermitian hQ h,
   fun _ h => bilinear1_hermitian hQ h,
   fun _ h => bilinear2_hermitian hQ h⟩

/-- Witness for C8 at `T = [[1/2]]`, `Q = [[1]]`. -/
theorem C8_witness : Qoneᴴ = Qone ∧ Sig43ᴴ = Sig43 :=
  ⟨Qone_hermitian,
   (C8_hermitian_output Thalf Qone Qone_hermitian).1 Sig43 eval_direct_Thalf⟩

/-- Counterexample to C9: `T = [[2]]` has spectral radius `2 ≥ 1`, yet the
direct method does not fail: it silently returns the (non-PSD, hence
meaningless as a covariance) matrix `[[-1/3]]`.  No method checks the
spectral radius; failure occurs only through singular inversions. -/
theorem C9_silent_return_counterexample :
    direct_inverse Ttwo Qone = some SigNegThird ∧
      direct_inverse Ttwo Qone ≠ none := by
  refine ⟨eval_direct_Ttwo, ?_⟩
  rw [eval_direct_Ttwo]
  exact fun hc => Option.noConfusion hc

/-- C9 as amended: at the spec's own example `T = [[1]]`, `Q = [[1]]`, every
method does fail (returns `none`); but a spectral radius `≥ 1` in general
does not force failure (see the counterexample `T = [[2]]`). -/
theorem C9_unit_root_failure :
    direct_inverse Tone Qone = none ∧ bilinear1 Tone Qone = none ∧
      bilinear2 Tone Qone = none :=
  ⟨eval_direct_Tone, eval_b1_Tone, eval_b2_Tone⟩

/-- Counterexample to C10: Hermitian-ness of `Q` is not checked anywhere:
for the non-Hermitian input `Q = [[i]]` both the direct method and
`bilinear2` happily return a result computed from that `Q` instead of
failing. -/
theorem C10_no_hermitian_check_counterexample :
    Qimagᴴ ≠ Qimag ∧ direct_inverse Thalf Qimag = some SigImag ∧
      bilinear2 Thalf Qimag = some SigImag :=
  ⟨Qimag_not_hermitian, eval_direct_Qimag, eval_b2_Qimag⟩

/-- C10 as amended: the solvers assume rather than check Hermitian-ness:
for EVERY `Q` whatsoever (Hermitian or not), the direct method returns a
result as soon as its operator is nonsingular, and `bilinear2` returns a
result as soon as its three inversions are nonsingular. -/
theorem C10_returns_regardless_of_Q {m : ℕ} (T Q : Mat m) :
    ((1 - kron T (conjm T)).det ≠ 0 → ∃ S, direct_inverse T Q = some S) ∧
    ((Tᴴ + 1).det ≠ 0 → (T + 1).det ≠ 0 →
      (lyapOp (((Tᴴ - 1) * (Tᴴ + 1)⁻¹)ᴴ)).det ≠ 0 →
      ∃ S, bilinear2 T Q = some S) := by
  constructor
  · intro hd
    exact ⟨_, direct_inverse_of_det hd⟩
  · intro h1 h2 h3
    unfold bilinear2
    rw [inv?_eq_some_inv h1]
    simp only [Option.some_bind]
    rw [show (Tᴴᴴ : Mat m) = T from Matrix.conjTranspose_conjTranspose T]
    rw [inv?_eq_some_inv h2]
    simp only [Option.some_bind]
    unfold solve_lyapunov
    rw [inv?_eq_some_inv h3]
    exact ⟨_, rfl⟩

/-- Witness for the amended C10 at `T = [[1/2]]` with the non-Hermitian
`Q = [[i]]`. -/
theorem C10_witness :
    (1 - kron Thalf (conjm Thalf)).det ≠ 0 ∧
      ∃ S, direct_inverse Thalf Qimag = some S := by
  have hdet : (1 - kron Thalf (conjm Thalf)).det ≠ 0 := by
    rw [det_big1, Ne, GaussQ.eq_iff]
    norm_num [Thalf, Matrix.one_apply]
  exact ⟨hdet, (C10_returns_regardless_of_Q Thalf Qimag).1 hdet⟩
